import Mathlib

/-!
# OmniGS rasterizer memory layout (`cuda_rasterizer/rasterizer_impl.h`)

Shallow embedding of the chunk allocator `obtain`, of the state factories
`fromChunk` (fixed sequences of `obtain` calls) and of the sizing function
`required`.  Addresses, `std::size_t` and `std::uintptr_t` values are natural
numbers below `2 ^ 64`; every machine operation wraps modulo `2 ^ 64`.
-/

namespace CudaRasterizer

/-! ## Machine arithmetic on 64-bit unsigned words -/

/-- Unsigned 64-bit addition. -/
def uadd (a b : Nat) : Nat := (a + b) % 2 ^ 64

/-- Unsigned 64-bit subtraction. -/
def usub (a b : Nat) : Nat := (a % 2 ^ 64 + (2 ^ 64 - b % 2 ^ 64)) % 2 ^ 64

/-- Unsigned 64-bit bitwise complement `~a`. -/
def unot (a : Nat) : Nat := 2 ^ 64 - 1 - a % 2 ^ 64

/-! ## The chunk allocator -/

/-- The two reference parameters of `obtain` after the call: the advanced
cursor `chunk` and the field pointer `ptr`. -/
structure Obtained where
  chunk : Nat
  ptr : Nat
  deriving DecidableEq

/-- The allocator `obtain<T>(chunk, ptr, count, alignment)` with `sizeofT = sizeof(T)`:
`offset = (chunk + alignment - 1) & ~(alignment - 1)`, `ptr = offset`,
`chunk = ptr + count` (pointer arithmetic on `T*`, i.e. `count * sizeof(T)` bytes). -/
def obtain (sizeofT chunk count alignment : Nat) : Obtained :=
  let offset := usub (uadd chunk alignment) 1 &&& unot (usub alignment 1)
  let ptr := offset
  { ptr := ptr, chunk := (ptr + count * sizeofT) % 2 ^ 64 }

/-- One `obtain` call of a state factory: the element size of the field's
type, the element count and the alignment passed to the call. -/
structure Field where
  sizeofT : Nat
  count : Nat
  alignment : Nat
  deriving DecidableEq

/-- The byte size `count * sizeof(T)` of a field. -/
def Field.bytes (f : Field) : Nat := f.count * f.sizeofT

/-- A fixed sequence of `obtain` calls threaded through the cursor: returns the
final cursor and the field pointers in call order. -/
def obtainAll : List Field → Nat → Nat × List Nat
  | [], chunk => (chunk, [])
  | f :: fs, chunk =>
    let r := obtain f.sizeofT chunk f.count f.alignment
    let rest := obtainAll fs r.chunk
    (rest.1, r.ptr :: rest.2)

/-- Modelled from the spec: the bodies of the `fromChunk` factories are not in
`rasterizer_impl.h` (only their declarations are).  By spec section 4.2 each
state type `T` defines one fixed, ordered sequence of allocator calls sizing its
fields from the element count; `layout P` is that sequence of `obtain` calls
for element count `P`, and is the parameter that stands for `T`. -/
structure StateType where
  layout : Nat → List Field

/-- The factory `T::fromChunk(chunk, P)`, whose body is the template parameter of
`required`: it threads the cursor through the `obtain` calls of `T` and returns
the final cursor (the mutated reference parameter) together with the field
pointers of the returned state. -/
def StateType.fromChunk (T : StateType) (chunk P : Nat) : Nat × List Nat :=
  obtainAll (T.layout P) chunk

/-- The sizing function `required<T>(P)`: run `T::fromChunk` on a null cursor
`size` and return `((size_t)size) + 128`. -/
def required (T : StateType) (P : Nat) : Nat :=
  let size := 0
  let r := T.fromChunk size P
  (r.1 + 128) % 2 ^ 64

/-! ## Side conditions -/

/-- A power-of-two alignment representable in `std::size_t`. -/
def IsPow2 (a : Nat) : Prop := ∃ k, k < 64 ∧ a = 2 ^ k

/-- The least multiple of `a` that is at least `c` (the spec's `roundUp`). -/
def roundUp (c a : Nat) : Nat := (c + a - 1) / a * a

/-- No address computation of the call sequence leaves the 64-bit range:
neither `chunk + alignment - 1` nor `ptr + count`. -/
def NoOverflow : List Field → Nat → Prop
  | [], _ => True
  | f :: fs, chunk =>
    1 ≤ f.alignment ∧ chunk + f.alignment - 1 < 2 ^ 64 ∧
    (obtain f.sizeofT chunk f.count f.alignment).ptr + f.count * f.sizeofT < 2 ^ 64 ∧
    NoOverflow fs (obtain f.sizeofT chunk f.count f.alignment).chunk

/-- End addresses `ptr + count * sizeof(T)` of the fields, in call order. -/
def fieldEnds : List Field → List Nat → List Nat
  | f :: fs, p :: ps => (p + f.bytes) :: fieldEnds fs ps
  | _, _ => []

instance NoOverflow.decidable : ∀ (fs : List Field) (chunk : Nat), Decidable (NoOverflow fs chunk)
  | [], _ => isTrue trivial
  | f :: fs, chunk =>
    have := NoOverflow.decidable fs (obtain f.sizeofT chunk f.count f.alignment).chunk
    inferInstanceAs (Decidable (1 ≤ f.alignment ∧ chunk + f.alignment - 1 < 2 ^ 64 ∧
      (obtain f.sizeofT chunk f.count f.alignment).ptr + f.count * f.sizeofT < 2 ^ 64 ∧
      NoOverflow fs (obtain f.sizeofT chunk f.count f.alignment).chunk))

/-! ## The geometry state -/

/-- Quantities that `GeometryState::fromChunk` takes from outside
`rasterizer_impl.h`: the number of colour channels, the number of floats of a
3D covariance, and the byte size of the prefix-sum scratch region reported by
the scan library for `P` elements. -/
structure GeometryConfig where
  NUM_CHANNELS : Nat
  cov3D_floats : Nat
  scan_size : Nat → Nat

/-- Modelled from the spec: the body of `GeometryState::fromChunk` is not in
`rasterizer_impl.h` (only its declaration is).  Following spec sections 3, 4.1
and 4.2, it is one fixed sequence of `obtain` calls, one per field of the
struct, each sized from the element count `P` (per point, per point and
channel, or the opaque scratch size `scan_size`) and each with the 128-byte
alignment.  The element sizes are those of the pointer types declared in the
struct (`float` 4, `char` 1, `bool` 1, `int` 4, `float2` 8, `float4` 16,
`uint32_t` 4); the fields are taken in declaration order. -/
def GeometryState (g : GeometryConfig) : StateType where
  layout P :=
    [ { sizeofT := 4, count := P, alignment := 128 },                      -- depths
      { sizeofT := 1, count := g.scan_size P, alignment := 128 },          -- scanning_space
      { sizeofT := 1, count := P * g.NUM_CHANNELS, alignment := 128 },     -- clamped
      { sizeofT := 4, count := P, alignment := 128 },                      -- internal_radii
      { sizeofT := 8, count := P, alignment := 128 },                      -- means2D
      { sizeofT := 4, count := P * g.cov3D_floats, alignment := 128 },     -- cov3D
      { sizeofT := 16, count := P, alignment := 128 },                     -- conic_opacity
      { sizeofT := 4, count := P * g.NUM_CHANNELS, alignment := 128 },     -- rgb
      { sizeofT := 4, count := P, alignment := 128 },                      -- point_offsets
      { sizeofT := 4, count := P, alignment := 128 } ]                     -- tiles_touched

instance IsPow2.decidable (a : Nat) : Decidable (IsPow2 a) :=
  inferInstanceAs (Decidable (∃ k, k < 64 ∧ a = 2 ^ k))

/-! ## Concrete inputs used to instantiate the theorems -/

/-- A geometry configuration with three colour channels, six covariance
floats and a non-trivial scan scratch size. -/
def sampleConfig : GeometryConfig :=
  { NUM_CHANNELS := 3, cov3D_floats := 6, scan_size := fun P => 4 * P + 767 }

/-- A geometry configuration whose scan scratch size is zero. -/
def zeroScanConfig : GeometryConfig :=
  { NUM_CHANNELS := 3, cov3D_floats := 6, scan_size := fun _ => 0 }

/-- A three-field call sequence with mixed alignments. -/
def sampleFields : List Field := [⟨4, 10, 128⟩, ⟨1, 3, 64⟩, ⟨8, 5, 128⟩]

/-! ## Closed forms and comparison of runs -/

/-- The closed form of the final cursor of a null-base run whose calls all use
the alignment `a`, from the field byte sizes `b_1 .. b_k`:
`roundUp(b_1, a) + ... + roundUp(b_(k-1), a) + b_k`, and 0 when there is no field. -/
def closedForm (a : Nat) : List Nat → Nat
  | [] => 0
  | [b] => b
  | b :: c :: bs => roundUp b a + closedForm a (c :: bs)

/-- The padding that a field of `b` bytes needs to reach the next multiple of `a`. -/
def padding (b a : Nat) : Nat := roundUp b a - b

/-- Two `obtain` calls for the same field (same element size and alignment), the
first with a count not exceeding that of the second. -/
def Field.SameCallLE (f g : Field) : Prop :=
  f.sizeofT = g.sizeofT ∧ f.alignment = g.alignment ∧ f.count ≤ g.count

instance Field.SameCallLE.decidable (f g : Field) : Decidable (f.SameCallLE g) :=
  inferInstanceAs (Decidable (f.sizeofT = g.sizeofT ∧ f.alignment = g.alignment ∧
    f.count ≤ g.count))

/-- A state type whose call sequence does not depend on the element count. -/
def StateType.ofFields (fs : List Field) : StateType := ⟨fun _ => fs⟩

/-- Two fields of 128 and 256 bytes, both multiples of the alignment. -/
def evenFields : List Field := [⟨4, 32, 128⟩, ⟨4, 64, 128⟩]

/-- The fields of `evenFields` in the other order. -/
def evenFieldsSwapped : List Field := [⟨4, 64, 128⟩, ⟨4, 32, 128⟩]

/-- A one-byte field followed by a 128-byte field. -/
def unevenFields : List Field := [⟨1, 1, 128⟩, ⟨1, 128, 128⟩]

/-- The fields of `unevenFields` in the other order. -/
def unevenFieldsSwapped : List Field := [⟨1, 128, 128⟩, ⟨1, 1, 128⟩]

/-! ## Bit-level lemmas -/

theorem and_mask (x k : Nat) (hk : k ≤ 64) (hx : x < 2 ^ 64) :
    x &&& (2 ^ 64 - 1 - (2 ^ k - 1)) = x / 2 ^ k * 2 ^ k := by
  have hp : 0 < 2 ^ k := Nat.two_pow_pos k
  have hle : 2 ^ k ≤ 2 ^ 64 := Nat.pow_le_pow_right (by decide) hk
  have e1 : 2 ^ 64 - 1 - (2 ^ k - 1) = 2 ^ 64 - ((2 ^ k - 1) + 1) := by omega
  rw [e1]
  apply Nat.eq_of_testBit_eq
  intro j
  rw [Nat.testBit_and, Nat.testBit_two_pow_sub_succ (by omega), Nat.testBit_two_pow_sub_one,
    Nat.mul_comm, Nat.testBit_mul_pow_two, ← Nat.shiftRight_eq_div_pow, Nat.testBit_shiftRight]
  by_cases h1 : j < k
  · have : ¬ (j ≥ k) := by omega
    simp [h1, this]
  · have h2 : j ≥ k := by omega
    have e : k + (j - k) = j := by omega
    by_cases h3 : j < 64
    · simp [h1, h2, h3, e]
    · have : x < 2 ^ j := lt_of_lt_of_le hx (Nat.pow_le_pow_right (by decide) (by omega))
      simp [h1, h2, h3, e, Nat.testBit_lt_two_pow this]

theorem and_add_and_compl (n : Nat) : ∀ x m : Nat, x < 2 ^ n → m < 2 ^ n →
    (x &&& m) + (x &&& (2 ^ n - 1 - m)) = x := by
  induction n with
  | zero =>
    intro x m hx hm
    have hx0 : x = 0 := by simpa using hx
    subst hx0
    simp
  | succ n ih =>
    intro x m hx hm
    have hpow : 2 ^ (n + 1) = 2 * 2 ^ n := by rw [pow_succ]; ring
    rw [hpow] at hx hm ⊢
    have hdiv := ih (x / 2) (m / 2) (by omega) (by omega)
    have e2 : (2 * 2 ^ n - 1 - m) / 2 = 2 ^ n - 1 - m / 2 := by omega
    have hA : (x &&& m) / 2 = x / 2 &&& m / 2 := Nat.and_div_two
    have hB : (x &&& (2 * 2 ^ n - 1 - m)) / 2 = x / 2 &&& (2 ^ n - 1 - m / 2) := by
      rw [Nat.and_div_two, e2]
    have hA1 : (x &&& m) % 2 = 1 ↔ x % 2 = 1 ∧ m % 2 = 1 := Nat.and_mod_two_eq_one
    have hB1 : (x &&& (2 * 2 ^ n - 1 - m)) % 2 = 1 ↔
        x % 2 = 1 ∧ (2 * 2 ^ n - 1 - m) % 2 = 1 := Nat.and_mod_two_eq_one
    rw [← hA, ← hB] at hdiv
    have hm2 : (2 * 2 ^ n - 1 - m) % 2 = 1 ↔ m % 2 = 0 := by omega
    rw [hm2] at hB1
    omega

/-! ## One `obtain` call -/

theorem offset_arg (c a : Nat) (ha : 1 ≤ a) (h : c + a - 1 < 2 ^ 64) :
    usub (uadd c a) 1 = c + a - 1 := by
  unfold usub uadd
  omega

theorem mask_arg (a : Nat) (ha : 1 ≤ a) (h : a ≤ 2 ^ 64) :
    unot (usub a 1) = 2 ^ 64 - 1 - (a - 1) := by
  unfold unot usub
  omega

theorem obtain_ptr_pow2 (s c n k : Nat) (hk : k < 64) (h : c + 2 ^ k - 1 < 2 ^ 64) :
    (obtain s c n (2 ^ k)).ptr = (c + 2 ^ k - 1) / 2 ^ k * 2 ^ k := by
  have hp : 0 < 2 ^ k := Nat.two_pow_pos k
  have hle : 2 ^ k ≤ 2 ^ 64 := Nat.pow_le_pow_right (by decide) (by omega)
  show usub (uadd c (2 ^ k)) 1 &&& unot (usub (2 ^ k) 1) = _
  rw [offset_arg c _ hp h, mask_arg _ hp hle, and_mask _ k (by omega) h]

theorem obtain_chunk (s c n a : Nat) :
    (obtain s c n a).chunk = ((obtain s c n a).ptr + n * s) % 2 ^ 64 := rfl

theorem obtain_ptr_bounds (s c n a : Nat) (ha : 1 ≤ a) (h : c + a - 1 < 2 ^ 64) :
    c ≤ (obtain s c n a).ptr ∧ (obtain s c n a).ptr ≤ c + a - 1 := by
  have hle : a ≤ 2 ^ 64 := by omega
  show c ≤ (usub (uadd c a) 1 &&& unot (usub a 1)) ∧
    (usub (uadd c a) 1 &&& unot (usub a 1)) ≤ c + a - 1
  rw [offset_arg c a ha h, mask_arg a ha hle]
  have hsum := and_add_and_compl 64 (c + a - 1) (a - 1) h (by omega)
  have hr : (c + a - 1) &&& (a - 1) ≤ a - 1 := Nat.and_le_right
  omega

theorem roundUp_dvd (c a : Nat) : a ∣ roundUp c a := Dvd.intro_left _ rfl

theorem le_roundUp (c a : Nat) (ha : 1 ≤ a) : c ≤ roundUp c a := by
  unfold roundUp
  have h1 := Nat.div_add_mod (c + a - 1) a
  have h2 := Nat.mod_lt (c + a - 1) (show 0 < a by omega)
  have h3 : (c + a - 1) / a * a = a * ((c + a - 1) / a) := Nat.mul_comm _ _
  omega

theorem roundUp_le_add (c a : Nat) : roundUp c a ≤ c + a - 1 := Nat.div_mul_le_self _ _

theorem roundUp_least (c a m : Nat) (ha : 1 ≤ a) (hd : a ∣ m) (hm : c ≤ m) :
    roundUp c a ≤ m := by
  obtain ⟨q, rfl⟩ := hd
  unfold roundUp
  have hq : (c + a - 1) / a ≤ q := by
    rw [Nat.div_le_iff_le_mul_add_pred (by omega)]
    rw [Nat.mul_comm] at hm ⊢
    have : a * q = q * a := Nat.mul_comm _ _
    omega
  calc (c + a - 1) / a * a ≤ q * a := Nat.mul_le_mul_right _ hq
    _ = a * q := Nat.mul_comm _ _

theorem roundUp_of_dvd (c a : Nat) (ha : 1 ≤ a) (hd : a ∣ c) : roundUp c a = c :=
  Nat.le_antisymm (roundUp_least c a c ha hd (Nat.le_refl _)) (le_roundUp c a ha)

theorem roundUp_mono (c d a : Nat) (h : c ≤ d) : roundUp c a ≤ roundUp d a := by
  unfold roundUp
  exact Nat.mul_le_mul_right _ (Nat.div_le_div_right (by omega))

theorem roundUp_add_of_dvd (D c a : Nat) (ha : 1 ≤ a) (hd : a ∣ D) :
    roundUp (D + c) a = D + roundUp c a := by
  obtain ⟨q, rfl⟩ := hd
  unfold roundUp
  have e : a * q + c + a - 1 = (c + a - 1) + a * q := by omega
  rw [e, Nat.add_mul_div_left _ _ (by omega : 0 < a), Nat.add_mul, Nat.mul_comm q a]
  omega

theorem obtain_ptr_roundUp (s c n a : Nat) (ha : IsPow2 a) (h : c + a - 1 < 2 ^ 64) :
    (obtain s c n a).ptr = roundUp c a := by
  obtain ⟨k, hk, rfl⟩ := ha
  exact obtain_ptr_pow2 s c n k hk h

theorem obtain_chunk_eq (s c n a : Nat) (h : (obtain s c n a).ptr + n * s < 2 ^ 64) :
    (obtain s c n a).chunk = (obtain s c n a).ptr + n * s := by
  rw [obtain_chunk]
  exact Nat.mod_eq_of_lt h

/-! ## Sequences of `obtain` calls -/

theorem obtainAll_cons (f : Field) (fs : List Field) (c : Nat) :
    obtainAll (f :: fs) c =
      ((obtainAll fs (obtain f.sizeofT c f.count f.alignment).chunk).1,
        (obtain f.sizeofT c f.count f.alignment).ptr ::
          (obtainAll fs (obtain f.sizeofT c f.count f.alignment).chunk).2) := rfl

theorem obtainAll_length (fs : List Field) : ∀ c, (obtainAll fs c).2.length = fs.length := by
  induction fs with
  | nil => intro c; rfl
  | cons f fs ih => intro c; simp [obtainAll_cons, ih]

theorem obtainAll_mono (fs : List Field) : ∀ c, NoOverflow fs c →
    c ≤ (obtainAll fs c).1 ∧ (∀ p ∈ (obtainAll fs c).2, c ≤ p) ∧
    (∀ e ∈ fieldEnds fs (obtainAll fs c).2, e ≤ (obtainAll fs c).1) := by
  induction fs with
  | nil => intro c _; simp [obtainAll, fieldEnds]
  | cons f fs ih =>
    intro c h
    obtain ⟨ha, h1, h2, h3⟩ := h
    have hb := (obtain_ptr_bounds f.sizeofT c f.count f.alignment ha h1).1
    have hc := obtain_chunk_eq f.sizeofT c f.count f.alignment h2
    obtain ⟨i1, i2, i3⟩ := ih _ h3
    rw [obtainAll_cons]
    refine ⟨by omega, ?_, ?_⟩
    · intro p hp
      rcases List.mem_cons.1 hp with rfl | hp
      · exact hb
      · have := i2 p hp
        omega
    · intro e he
      simp only [fieldEnds, Field.bytes] at he
      rcases List.mem_cons.1 he with rfl | he
      · omega
      · exact i3 e he

theorem IsPow2.pos {a : Nat} (ha : IsPow2 a) : 1 ≤ a := by
  obtain ⟨k, _, rfl⟩ := ha
  exact Nat.two_pow_pos k

theorem IsPow2.add_le {a x : Nat} (ha : IsPow2 a) (hd : a ∣ x) (hx : x < 2 ^ 64) :
    x + a ≤ 2 ^ 64 := by
  obtain ⟨k, hk, rfl⟩ := ha
  obtain ⟨q, rfl⟩ := hd
  have e : (2 : Nat) ^ 64 = 2 ^ k * 2 ^ (64 - k) := by
    rw [← pow_add]; congr 1; omega
  rw [e] at hx ⊢
  have hq : q < 2 ^ (64 - k) := Nat.lt_of_mul_lt_mul_left hx
  calc 2 ^ k * q + 2 ^ k = 2 ^ k * (q + 1) := by ring
    _ ≤ 2 ^ k * 2 ^ (64 - k) := Nat.mul_le_mul_left _ hq

/-- Shifting the start cursor by a multiple `D` of every alignment shifts the
whole run by `D` (from the run at the shifted cursor to the unshifted one). -/
theorem obtainAll_shift_down (D : Nat) (fs : List Field) : ∀ c,
    (∀ f ∈ fs, IsPow2 f.alignment ∧ f.alignment ∣ D) → NoOverflow fs (D + c) →
    NoOverflow fs c ∧
    obtainAll fs (D + c) = (D + (obtainAll fs c).1, (obtainAll fs c).2.map (D + ·)) := by
  induction fs with
  | nil => intro c _ _; simp [obtainAll, NoOverflow]
  | cons f fs ih =>
    intro c hal h
    obtain ⟨ha, h1, h2, h3⟩ := h
    obtain ⟨hp2, hdv⟩ := hal f (List.mem_cons_self _ _)
    have h1c : c + f.alignment - 1 < 2 ^ 64 := by omega
    have eD := obtain_ptr_roundUp f.sizeofT (D + c) f.count f.alignment hp2 h1
    have ec := obtain_ptr_roundUp f.sizeofT c f.count f.alignment hp2 h1c
    have esh := roundUp_add_of_dvd D c f.alignment ha hdv
    have hcD := obtain_chunk_eq f.sizeofT (D + c) f.count f.alignment h2
    have h2c : (obtain f.sizeofT c f.count f.alignment).ptr + f.count * f.sizeofT < 2 ^ 64 := by
      omega
    have hcc := obtain_chunk_eq f.sizeofT c f.count f.alignment h2c
    have hch : (obtain f.sizeofT (D + c) f.count f.alignment).chunk =
        D + (obtain f.sizeofT c f.count f.alignment).chunk := by omega
    rw [hch] at h3
    obtain ⟨i1, i2⟩ := ih _ (fun g hg => hal g (List.mem_cons_of_mem _ hg)) h3
    refine ⟨⟨ha, h1c, h2c, i1⟩, ?_⟩
    have hptr : (obtain f.sizeofT (D + c) f.count f.alignment).ptr =
        D + (obtain f.sizeofT c f.count f.alignment).ptr := by omega
    rw [obtainAll_cons, obtainAll_cons, hch, i2, hptr]
    simp only [List.map_cons]

/-- The converse direction: a run without overflow can be shifted up by `D`
as long as the shifted final cursor stays in range. -/
theorem obtainAll_shift_up (D : Nat) (fs : List Field) : ∀ c,
    (∀ f ∈ fs, IsPow2 f.alignment ∧ f.alignment ∣ D) → NoOverflow fs c →
    D + (obtainAll fs c).1 < 2 ^ 64 → NoOverflow fs (D + c) := by
  induction fs with
  | nil => intro c _ _ _; trivial
  | cons f fs ih =>
    intro c hal h hfin
    obtain ⟨ha, h1, h2, h3⟩ := h
    obtain ⟨hp2, hdv⟩ := hal f (List.mem_cons_self _ _)
    rw [obtainAll_cons] at hfin
    simp only at hfin
    have hmono := (obtainAll_mono fs _ h3).1
    have ec := obtain_ptr_roundUp f.sizeofT c f.count f.alignment hp2 h1
    have hcc := obtain_chunk_eq f.sizeofT c f.count f.alignment h2
    have hle := le_roundUp c f.alignment ha
    have hdd : f.alignment ∣ D + roundUp c f.alignment :=
      Nat.dvd_add hdv (roundUp_dvd c f.alignment)
    have hroom := hp2.add_le hdd (by omega)
    have h1D : D + c + f.alignment - 1 < 2 ^ 64 := by omega
    have eD := obtain_ptr_roundUp f.sizeofT (D + c) f.count f.alignment hp2 h1D
    have esh := roundUp_add_of_dvd D c f.alignment ha hdv
    have h2D : (obtain f.sizeofT (D + c) f.count f.alignment).ptr + f.count * f.sizeofT
        < 2 ^ 64 := by omega
    have hcD := obtain_chunk_eq f.sizeofT (D + c) f.count f.alignment h2D
    have hch : (obtain f.sizeofT (D + c) f.count f.alignment).chunk =
        D + (obtain f.sizeofT c f.count f.alignment).chunk := by omega
    refine ⟨ha, h1D, h2D, ?_⟩
    rw [hch]
    exact ih _ (fun g hg => hal g (List.mem_cons_of_mem _ hg)) h3 hfin

/-- A run started at a lower cursor stays below the run started at a higher one. -/
theorem obtainAll_le_of_le (fs : List Field) : ∀ c d, c ≤ d →
    (∀ f ∈ fs, IsPow2 f.alignment) → NoOverflow fs d →
    NoOverflow fs c ∧ (obtainAll fs c).1 ≤ (obtainAll fs d).1 := by
  induction fs with
  | nil => intro c d hcd _ _; exact ⟨trivial, hcd⟩
  | cons f fs ih =>
    intro c d hcd hal h
    obtain ⟨ha, h1, h2, h3⟩ := h
    have hp2 := hal f (List.mem_cons_self _ _)
    have h1c : c + f.alignment - 1 < 2 ^ 64 := by omega
    have ed := obtain_ptr_roundUp f.sizeofT d f.count f.alignment hp2 h1
    have ec := obtain_ptr_roundUp f.sizeofT c f.count f.alignment hp2 h1c
    have hm := roundUp_mono c d f.alignment hcd
    have h2c : (obtain f.sizeofT c f.count f.alignment).ptr + f.count * f.sizeofT < 2 ^ 64 := by
      omega
    have hcc := obtain_chunk_eq f.sizeofT c f.count f.alignment h2c
    have hcd2 := obtain_chunk_eq f.sizeofT d f.count f.alignment h2
    obtain ⟨i1, i2⟩ := ih (obtain f.sizeofT c f.count f.alignment).chunk
      (obtain f.sizeofT d f.count f.alignment).chunk (by omega)
      (fun g hg => hal g (List.mem_cons_of_mem _ hg)) h3
    exact ⟨⟨ha, h1c, h2c, i1⟩, by rw [obtainAll_cons, obtainAll_cons]; exact i2⟩

theorem obtainAll_ptrs_aligned (B : Nat) (fs : List Field) : ∀ c, B ≤ c →
    (∀ f ∈ fs, IsPow2 f.alignment) → NoOverflow fs c →
    List.Forall₂ (fun f p => B ≤ p ∧ f.alignment ∣ p) fs (obtainAll fs c).2 := by
  induction fs with
  | nil => intro c _ _ _; exact List.Forall₂.nil
  | cons f fs ih =>
    intro c hc hal h
    obtain ⟨ha, h1, h2, h3⟩ := h
    have hp2 := hal f (List.mem_cons_self _ _)
    have ec := obtain_ptr_roundUp f.sizeofT c f.count f.alignment hp2 h1
    have hle := le_roundUp c f.alignment ha
    have hcc := obtain_chunk_eq f.sizeofT c f.count f.alignment h2
    rw [obtainAll_cons]
    refine List.Forall₂.cons ⟨by omega, ?_⟩ ?_
    · rw [ec]; exact roundUp_dvd c f.alignment
    · exact ih _ (by omega) (fun g hg => hal g (List.mem_cons_of_mem _ hg)) h3

/-- In a run without overflow, a field ends no later than any later field starts. -/
theorem obtainAll_ordered (fs : List Field) : ∀ (c i j : Nat) (f : Field) (p q : Nat),
    NoOverflow fs c → i < j → fs[i]? = some f →
    (obtainAll fs c).2[i]? = some p → (obtainAll fs c).2[j]? = some q →
    p + f.count * f.sizeofT ≤ q := by
  induction fs with
  | nil => intro c i j f p q _ _ hf; simp at hf
  | cons g fs ih =>
    intro c i j f p q h hij hf hp hq
    obtain ⟨ha, h1, h2, h3⟩ := h
    rw [obtainAll_cons] at hp hq
    obtain ⟨j, rfl⟩ : ∃ j', j = j' + 1 := ⟨j - 1, by omega⟩
    simp only [List.getElem?_cons_succ] at hq
    cases i with
    | zero =>
      simp only [List.getElem?_cons_zero, Option.some.injEq] at hf hp
      subst hf hp
      have hcc := obtain_chunk_eq g.sizeofT c g.count g.alignment h2
      have := (obtainAll_mono fs _ h3).2.1 q (List.getElem?_mem hq)
      omega
    | succ i =>
      simp only [List.getElem?_cons_succ] at hf hp
      exact ih _ i j f p q h3 (by omega) hf hp hq

theorem obtainAll_within (fs : List Field) : ∀ (c i : Nat) (f : Field) (p : Nat),
    NoOverflow fs c → fs[i]? = some f → (obtainAll fs c).2[i]? = some p →
    c ≤ p ∧ p + f.count * f.sizeofT ≤ (obtainAll fs c).1 := by
  induction fs with
  | nil => intro c i f p _ hf; simp at hf
  | cons g fs ih =>
    intro c i f p h hf hp
    obtain ⟨ha, h1, h2, h3⟩ := h
    have hb := (obtain_ptr_bounds g.sizeofT c g.count g.alignment ha h1).1
    have hcc := obtain_chunk_eq g.sizeofT c g.count g.alignment h2
    have hmono := (obtainAll_mono fs _ h3).1
    rw [obtainAll_cons] at hp ⊢
    cases i with
    | zero =>
      simp only [List.getElem?_cons_zero, Option.some.injEq] at hf hp
      subst hf hp
      exact ⟨hb, by omega⟩
    | succ i =>
      simp only [List.getElem?_cons_succ] at hf hp
      have := ih _ i f p h3 hf hp
      exact ⟨by omega, this.2⟩

theorem foldr_max_base (l : List Nat) (b : Nat) :
    l.foldr max b = max b (l.foldr max 0) := by
  induction l with
  | nil => simp
  | cons x l ih => simp only [List.foldr_cons]; rw [ih]; omega

/-- The final cursor is the end of the last field and the largest field end. -/
theorem obtainAll_final (fs : List Field) : ∀ c, NoOverflow fs c →
    (obtainAll fs c).1 = (fieldEnds fs (obtainAll fs c).2).foldr max c ∧
    (obtainAll fs c).1 = (fieldEnds fs (obtainAll fs c).2).getLast?.getD c := by
  induction fs with
  | nil => intro c _; simp [obtainAll, fieldEnds]
  | cons f fs ih =>
    intro c h
    obtain ⟨ha, h1, h2, h3⟩ := h
    have hb := (obtain_ptr_bounds f.sizeofT c f.count f.alignment ha h1).1
    have hcc := obtain_chunk_eq f.sizeofT c f.count f.alignment h2
    have hmono := (obtainAll_mono fs _ h3).1
    obtain ⟨i1, i2⟩ := ih _ h3
    rw [obtainAll_cons]
    simp only [fieldEnds, Field.bytes, List.foldr_cons]
    rw [foldr_max_base] at i1 ⊢
    refine ⟨by omega, ?_⟩
    rw [List.getLast?_cons, Option.getD_some, ← hcc]
    exact i2

/-! ## Runs in which every count is zero -/

theorem obtain_zero_count (s c a : Nat) (ha : IsPow2 a) (h : c + a - 1 < 2 ^ 64) :
    obtain s c 0 a = { chunk := roundUp c a, ptr := roundUp c a } := by
  have hp := obtain_ptr_roundUp s c 0 a ha h
  have hr := roundUp_le_add c a
  have hc := obtain_chunk_eq s c 0 a (by omega)
  have e : obtain s c 0 a = { chunk := (obtain s c 0 a).chunk, ptr := (obtain s c 0 a).ptr } := rfl
  rw [e, hc, hp, Nat.zero_mul, Nat.add_zero]

theorem obtainAll_zero_counts_aligned (a : Nat) (ha : IsPow2 a) (fs : List Field) :
    ∀ c, a ∣ c → c < 2 ^ 64 → (∀ f ∈ fs, f.count = 0 ∧ f.alignment = a) →
    obtainAll fs c = (c, List.replicate fs.length c) := by
  induction fs with
  | nil => intro c _ _ _; rfl
  | cons f fs ih =>
    intro c hd hc hal
    obtain ⟨hcount, halign⟩ := hal f (List.mem_cons_self _ _)
    have hroom := ha.add_le hd hc
    have h1 := ha.pos
    have hz := obtain_zero_count f.sizeofT c a ha (by omega)
    rw [roundUp_of_dvd c a h1 hd] at hz
    rw [obtainAll_cons, hcount, halign, hz]
    simp only
    rw [ih c hd hc (fun g hg => hal g (List.mem_cons_of_mem _ hg))]
    rfl

theorem obtainAll_zero_counts (a : Nat) (ha : IsPow2 a) (f : Field) (fs : List Field) (c : Nat)
    (h : c + a - 1 < 2 ^ 64) (hal : ∀ g ∈ f :: fs, g.count = 0 ∧ g.alignment = a) :
    obtainAll (f :: fs) c = (roundUp c a, List.replicate (fs.length + 1) (roundUp c a)) := by
  obtain ⟨hcount, halign⟩ := hal f (List.mem_cons_self _ _)
  have hz := obtain_zero_count f.sizeofT c a ha h
  have hr := roundUp_le_add c a
  rw [obtainAll_cons, hcount, halign, hz]
  simp only
  rw [obtainAll_zero_counts_aligned a ha fs (roundUp c a) (roundUp_dvd c a) (by omega)
    (fun g hg => hal g (List.mem_cons_of_mem _ hg))]
  rfl

theorem geometry_layout_zero (g : GeometryConfig) (hs : g.scan_size 0 = 0) :
    ∀ f ∈ (GeometryState g).layout 0, f.count = 0 ∧ f.alignment = 128 := by
  intro f hf
  simp only [GeometryState, hs, Nat.zero_mul, List.mem_cons, List.mem_singleton,
    List.not_mem_nil, or_false] at hf
  rcases hf with rfl | rfl | rfl | rfl | rfl | rfl | rfl | rfl | rfl | rfl <;> exact ⟨rfl, rfl⟩

theorem geometry_fromChunk_zero (g : GeometryConfig) (hs : g.scan_size 0 = 0) (B : Nat)
    (hB : B + 127 < 2 ^ 64) :
    (GeometryState g).fromChunk B 0 = (roundUp B 128, List.replicate 10 (roundUp B 128)) :=
  obtainAll_zero_counts 128 ⟨7, by decide, rfl⟩ _ _ B (by omega) (geometry_layout_zero g hs)

/-! ## The contract of `obtain` and of `required` -/

/-- C1: for every cursor c, element size s, count n and power-of-two alignment a,
with no address overflow, obtain sets ptr to roundUp(c, a), which is the least
multiple of a that is at least c, and sets the cursor to ptr + n*s. -/
theorem obtain_contract (c s n a : Nat) (ha : IsPow2 a) (h1 : c + a - 1 < 2 ^ 64)
    (h2 : roundUp c a + n * s < 2 ^ 64) :
    (obtain s c n a).ptr = roundUp c a ∧
    a ∣ (obtain s c n a).ptr ∧ c ≤ (obtain s c n a).ptr ∧
    (∀ m, a ∣ m → c ≤ m → (obtain s c n a).ptr ≤ m) ∧
    (obtain s c n a).chunk = (obtain s c n a).ptr + n * s := by
  have hp := obtain_ptr_roundUp s c n a ha h1
  have h1a : 1 ≤ a := ha.pos
  refine ⟨hp, ?_, ?_, ?_, ?_⟩
  · rw [hp]; exact roundUp_dvd c a
  · rw [hp]; exact le_roundUp c a h1a
  · intro m hd hm
    rw [hp]; exact roundUp_least c a m h1a hd hm
  · exact obtain_chunk_eq s c n a (by rw [hp]; exact h2)

theorem obtain_contract_witness :
    IsPow2 128 ∧ 1000 + 128 - 1 < 2 ^ 64 ∧ roundUp 1000 128 + 10 * 4 < 2 ^ 64 ∧
    (obtain 4 1000 10 128).ptr = roundUp 1000 128 ∧
    128 ∣ (obtain 4 1000 10 128).ptr ∧ 1000 ≤ (obtain 4 1000 10 128).ptr ∧
    (∀ m, 128 ∣ m → 1000 ≤ m → (obtain 4 1000 10 128).ptr ≤ m) ∧
    (obtain 4 1000 10 128).chunk = (obtain 4 1000 10 128).ptr + 10 * 4 :=
  ⟨⟨7, by decide, by decide⟩, by decide, by decide,
    obtain_contract 1000 4 10 128 ⟨7, by decide, by decide⟩ (by decide) (by decide)⟩

/-- C2: for a state layout whose alignments are powers of two not exceeding 128,
every element count P whose sizing pass does not overflow, and every base
address B (aligned or not) at which a buffer of required(P) bytes fits in the
address space, the real pass from B does not overflow, ends at a cursor e with
B <= e and e - B <= required(P), and no field ends past B + required(P). -/
theorem required_covers_real_run (T : StateType) (P B : Nat)
    (hal : ∀ f ∈ T.layout P, ∃ k, k ≤ 7 ∧ f.alignment = 2 ^ k)
    (h0 : NoOverflow (T.layout P) 0)
    (hreq : (T.fromChunk 0 P).1 + 128 < 2 ^ 64)
    (hbuf : B + required T P ≤ 2 ^ 64) :
    NoOverflow (T.layout P) B ∧
    B ≤ (T.fromChunk B P).1 ∧
    (T.fromChunk B P).1 - B ≤ required T P ∧
    ∀ e ∈ fieldEnds (T.layout P) (T.fromChunk B P).2, e ≤ B + required T P := by
  have hr : required T P = (T.fromChunk 0 P).1 + 128 := Nat.mod_eq_of_lt hreq
  rw [hr] at hbuf ⊢
  have hD1 := le_roundUp B 128 (by decide)
  have hD2 := roundUp_le_add B 128
  have hal2 : ∀ f ∈ T.layout P, IsPow2 f.alignment ∧ f.alignment ∣ roundUp B 128 := by
    intro f hf
    obtain ⟨k, hk, e⟩ := hal f hf
    refine ⟨⟨k, by omega, e⟩, ?_⟩
    rw [e]
    exact Nat.dvd_trans (Nat.pow_dvd_pow 2 hk) (roundUp_dvd B 128)
  have hup := obtainAll_shift_up (roundUp B 128) (T.layout P) 0 hal2 h0
    (by show roundUp B 128 + (T.fromChunk 0 P).1 < 2 ^ 64; omega)
  have hsh := (obtainAll_shift_down (roundUp B 128) (T.layout P) 0 hal2 hup).2
  rw [Nat.add_zero] at hup hsh
  obtain ⟨hB, hle⟩ := obtainAll_le_of_le (T.layout P) B (roundUp B 128) hD1
    (fun f hf => (hal2 f hf).1) hup
  rw [hsh] at hle
  have hmono := obtainAll_mono (T.layout P) B hB
  have hfin : (T.fromChunk B P).1 ≤ roundUp B 128 + (T.fromChunk 0 P).1 := hle
  refine ⟨hB, hmono.1, by omega, ?_⟩
  intro e he
  have := hmono.2.2 e he
  have h' : e ≤ (T.fromChunk B P).1 := this
  omega

theorem required_covers_real_run_witness :
    (∀ f ∈ (GeometryState sampleConfig).layout 2, ∃ k, k ≤ 7 ∧ f.alignment = 2 ^ k) ∧
    NoOverflow ((GeometryState sampleConfig).layout 2) 0 ∧
    ((GeometryState sampleConfig).fromChunk 0 2).1 + 128 < 2 ^ 64 ∧
    1000 + required (GeometryState sampleConfig) 2 ≤ 2 ^ 64 ∧
    (NoOverflow ((GeometryState sampleConfig).layout 2) 1000 ∧
      1000 ≤ ((GeometryState sampleConfig).fromChunk 1000 2).1 ∧
      ((GeometryState sampleConfig).fromChunk 1000 2).1 - 1000 ≤
        required (GeometryState sampleConfig) 2 ∧
      ∀ e ∈ fieldEnds ((GeometryState sampleConfig).layout 2)
          ((GeometryState sampleConfig).fromChunk 1000 2).2,
        e ≤ 1000 + required (GeometryState sampleConfig) 2) :=
  ⟨by decide, by decide, by decide, by decide,
    required_covers_real_run (GeometryState sampleConfig) 2 1000
      (by decide) (by decide) (by decide) (by decide)⟩

/-- C3: for every sequence of obtain calls with power-of-two alignments started
at a base address B (no address overflow), every returned field pointer is at
least B and is a multiple of the alignment passed to the call that produced it. -/
theorem field_ptrs_above_base_and_aligned (fs : List Field) (B : Nat)
    (hal : ∀ f ∈ fs, IsPow2 f.alignment) (h : NoOverflow fs B) :
    List.Forall₂ (fun f p => B ≤ p ∧ f.alignment ∣ p) fs (obtainAll fs B).2 :=
  obtainAll_ptrs_aligned B fs B (Nat.le_refl B) hal h

theorem field_ptrs_above_base_and_aligned_witness :
    (∀ f ∈ sampleFields, IsPow2 f.alignment) ∧ NoOverflow sampleFields 1000 ∧
    List.Forall₂ (fun f p => 1000 ≤ p ∧ f.alignment ∣ p) sampleFields
      (obtainAll sampleFields 1000).2 :=
  ⟨by decide, by decide,
    field_ptrs_above_base_and_aligned sampleFields 1000 (by decide) (by decide)⟩

/-- C4: for every state type, element count and base B that is a multiple of
every (power-of-two) alignment used, the field pointers and the final cursor
obtained from B equal B plus those obtained from the null base 0. -/
theorem null_base_equivalence (T : StateType) (P B : Nat)
    (hal : ∀ f ∈ T.layout P, IsPow2 f.alignment ∧ f.alignment ∣ B)
    (h : NoOverflow (T.layout P) B) :
    (T.fromChunk B P).1 = B + (T.fromChunk 0 P).1 ∧
    (T.fromChunk B P).2 = (T.fromChunk 0 P).2.map (fun p => B + p) := by
  have := (obtainAll_shift_down B (T.layout P) 0 hal h).2
  rw [Nat.add_zero] at this
  exact ⟨congrArg Prod.fst this, congrArg Prod.snd this⟩

theorem null_base_equivalence_witness :
    (∀ f ∈ (GeometryState sampleConfig).layout 2, IsPow2 f.alignment ∧ f.alignment ∣ 4096) ∧
    NoOverflow ((GeometryState sampleConfig).layout 2) 4096 ∧
    ((GeometryState sampleConfig).fromChunk 4096 2).1 =
      4096 + ((GeometryState sampleConfig).fromChunk 0 2).1 ∧
    ((GeometryState sampleConfig).fromChunk 4096 2).2 =
      ((GeometryState sampleConfig).fromChunk 0 2).2.map (fun p => 4096 + p) :=
  ⟨by decide, by decide,
    null_base_equivalence (GeometryState sampleConfig) 2 4096 (by decide) (by decide)⟩

/-- C5: with no address overflow, each obtain call never decreases the cursor,
and in any sequence of obtain calls the start pointer of the next field minus
the start pointer of the current field is at least count * sizeof(T) of the
current field. -/
theorem monotonic_chunk_advance :
    (∀ s c n a : Nat, 1 ≤ a → c + a - 1 < 2 ^ 64 → (obtain s c n a).ptr + n * s < 2 ^ 64 →
      c ≤ (obtain s c n a).chunk) ∧
    (∀ (fs : List Field) (c : Nat), NoOverflow fs c →
      ∀ (i : Nat) (f : Field) (p q : Nat), fs[i]? = some f →
        (obtainAll fs c).2[i]? = some p → (obtainAll fs c).2[i + 1]? = some q →
        p ≤ q ∧ f.count * f.sizeofT ≤ q - p) := by
  refine ⟨?_, ?_⟩
  · intro s c n a ha h1 h2
    have hb := (obtain_ptr_bounds s c n a ha h1).1
    have hc := obtain_chunk_eq s c n a h2
    omega
  · intro fs c h i f p q hf hp hq
    have := obtainAll_ordered fs c i (i + 1) f p q h (by omega) hf hp hq
    omega

theorem monotonic_chunk_advance_witness :
    (1 ≤ 128 ∧ 1000 + 128 - 1 < 2 ^ 64 ∧ (obtain 4 1000 10 128).ptr + 10 * 4 < 2 ^ 64 ∧
      1000 ≤ (obtain 4 1000 10 128).chunk) ∧
    (NoOverflow sampleFields 1000 ∧
      sampleFields[1]? = some ⟨1, 3, 64⟩ ∧ (obtainAll sampleFields 1000).2[1]? = some 1088 ∧
      (obtainAll sampleFields 1000).2[1 + 1]? = some 1152 ∧
      1088 ≤ 1152 ∧ 3 * 1 ≤ 1152 - 1088) :=
  ⟨⟨by decide, by decide, by decide,
      monotonic_chunk_advance.1 4 1000 10 128 (by decide) (by decide) (by decide)⟩,
    by decide, by decide, by decide, by decide,
    monotonic_chunk_advance.2 sampleFields 1000 (by decide) 1 ⟨1, 3, 64⟩ 1088 1152
      (by decide) (by decide) (by decide)⟩

/-- C6: for every sequence of obtain calls without address overflow, the byte
regions [ptr_i, ptr_i + count_i * sizeof(T_i)) of two different fields are
disjoint, and each region lies between the base and the final cursor. -/
theorem field_regions_disjoint (fs : List Field) (B : Nat) (h : NoOverflow fs B) :
    (∀ (i j : Nat) (f g : Field) (p q : Nat), i ≠ j →
      fs[i]? = some f → fs[j]? = some g →
      (obtainAll fs B).2[i]? = some p → (obtainAll fs B).2[j]? = some q →
      ∀ x, ¬ (p ≤ x ∧ x < p + f.bytes ∧ q ≤ x ∧ x < q + g.bytes)) ∧
    (∀ (i : Nat) (f : Field) (p : Nat), fs[i]? = some f → (obtainAll fs B).2[i]? = some p →
      B ≤ p ∧ p + f.bytes ≤ (obtainAll fs B).1) := by
  refine ⟨?_, ?_⟩
  · intro i j f g p q hij hf hg hp hq x
    unfold Field.bytes
    rcases Nat.lt_or_gt_of_ne hij with hlt | hgt
    · have := obtainAll_ordered fs B i j f p q h hlt hf hp hq
      omega
    · have := obtainAll_ordered fs B j i g q p h hgt hg hq hp
      omega
  · intro i f p hf hp
    exact obtainAll_within fs B i f p h hf hp

theorem field_regions_disjoint_witness :
    NoOverflow sampleFields 1000 ∧
    ((∀ (i j : Nat) (f g : Field) (p q : Nat), i ≠ j →
      sampleFields[i]? = some f → sampleFields[j]? = some g →
      (obtainAll sampleFields 1000).2[i]? = some p →
      (obtainAll sampleFields 1000).2[j]? = some q →
      ∀ x, ¬ (p ≤ x ∧ x < p + f.bytes ∧ q ≤ x ∧ x < q + g.bytes)) ∧
    (∀ (i : Nat) (f : Field) (p : Nat), sampleFields[i]? = some f →
      (obtainAll sampleFields 1000).2[i]? = some p →
      1000 ≤ p ∧ p + f.bytes ≤ (obtainAll sampleFields 1000).1)) :=
  ⟨by decide, field_regions_disjoint sampleFields 1000 (by decide)⟩

/-- C7: for every state type T and element count P whose sizing pass does not
overflow, required(P) is 128 plus the final cursor of T::fromChunk run from the
null cursor, and that final cursor is the total span of the layout: the end
offset of the last field, which is the maximum end offset over all fields. -/
theorem required_eq_span_plus_slack (T : StateType) (P : Nat)
    (h0 : NoOverflow (T.layout P) 0) (hreq : (T.fromChunk 0 P).1 + 128 < 2 ^ 64) :
    required T P = 128 + (T.fromChunk 0 P).1 ∧
    (T.fromChunk 0 P).1 = (fieldEnds (T.layout P) (T.fromChunk 0 P).2).getLast?.getD 0 ∧
    (T.fromChunk 0 P).1 = (fieldEnds (T.layout P) (T.fromChunk 0 P).2).foldr max 0 := by
  have hr : required T P = (T.fromChunk 0 P).1 + 128 := Nat.mod_eq_of_lt hreq
  obtain ⟨i1, i2⟩ := obtainAll_final (T.layout P) 0 h0
  exact ⟨by omega, i2, i1⟩

theorem required_eq_span_plus_slack_witness :
    NoOverflow ((GeometryState sampleConfig).layout 2) 0 ∧
    ((GeometryState sampleConfig).fromChunk 0 2).1 + 128 < 2 ^ 64 ∧
    required (GeometryState sampleConfig) 2 =
      128 + ((GeometryState sampleConfig).fromChunk 0 2).1 ∧
    ((GeometryState sampleConfig).fromChunk 0 2).1 =
      (fieldEnds ((GeometryState sampleConfig).layout 2)
        ((GeometryState sampleConfig).fromChunk 0 2).2).getLast?.getD 0 ∧
    ((GeometryState sampleConfig).fromChunk 0 2).1 =
      (fieldEnds ((GeometryState sampleConfig).layout 2)
        ((GeometryState sampleConfig).fromChunk 0 2).2).foldr max 0 :=
  ⟨by decide, by decide,
    required_eq_span_plus_slack (GeometryState sampleConfig) 2 (by decide) (by decide)⟩

/-- C8: when every field of GeometryState is obtained with a count that is zero
for P = 0 (the scan scratch size included), the layout run from the null cursor
ends at cursor 0 and required(0) is the slack margin only, 128 bytes. -/
theorem geometry_required_zero (g : GeometryConfig) (hs : g.scan_size 0 = 0) :
    ((GeometryState g).fromChunk 0 0).1 = 0 ∧ required (GeometryState g) 0 = 128 := by
  have h := geometry_fromChunk_zero g hs 0 (by decide)
  have e : ((GeometryState g).fromChunk 0 0).1 = 0 := by rw [h]; rfl
  refine ⟨e, ?_⟩
  show (((GeometryState g).fromChunk 0 0).1 + 128) % 2 ^ 64 = 128
  rw [e]
  decide

theorem geometry_required_zero_witness :
    zeroScanConfig.scan_size 0 = 0 ∧
    ((GeometryState zeroScanConfig).fromChunk 0 0).1 = 0 ∧
    required (GeometryState zeroScanConfig) 0 = 128 :=
  ⟨rfl, geometry_required_zero zeroScanConfig rfl⟩

/-- C9 as stated fails: with P = 0 and every count zero, the ten field pointers
obtained from base 1000 are all 1024, so they are not pairwise distinct. -/
theorem geometry_zero_ptrs_not_distinct :
    ((GeometryState zeroScanConfig).fromChunk 1000 0).2 = List.replicate 10 1024 ∧
    ¬ ((GeometryState zeroScanConfig).fromChunk 1000 0).2.Pairwise (fun p q => p ≠ q) := by
  decide

/-- C9 (amended): GeometryState::fromChunk with P = 0 (every field obtained with
count 0) from any base B yields ten field pointers that all equal the same
aligned address, B rounded up to 128 (at least B, below B + 128), and the
cursor stays at that address: every field has zero usable span. -/
theorem geometry_zero_ptrs_coincide (g : GeometryConfig) (hs : g.scan_size 0 = 0) (B : Nat)
    (hB : B + 127 < 2 ^ 64) :
    ((GeometryState g).fromChunk B 0).2 = List.replicate 10 (roundUp B 128) ∧
    ((GeometryState g).fromChunk B 0).1 = roundUp B 128 ∧
    128 ∣ roundUp B 128 ∧ B ≤ roundUp B 128 ∧ roundUp B 128 < B + 128 := by
  have h := geometry_fromChunk_zero g hs B hB
  have h1 := roundUp_le_add B 128
  refine ⟨by rw [h], by rw [h], roundUp_dvd B 128, le_roundUp B 128 (by decide), by omega⟩

theorem geometry_zero_ptrs_coincide_witness :
    zeroScanConfig.scan_size 0 = 0 ∧ 1000 + 127 < 2 ^ 64 ∧
    ((GeometryState zeroScanConfig).fromChunk 1000 0).2 = List.replicate 10 (roundUp 1000 128) ∧
    ((GeometryState zeroScanConfig).fromChunk 1000 0).1 = roundUp 1000 128 ∧
    128 ∣ roundUp 1000 128 ∧ 1000 ≤ roundUp 1000 128 ∧ roundUp 1000 128 < 1000 + 128 :=
  ⟨rfl, by decide, geometry_zero_ptrs_coincide zeroScanConfig rfl 1000 (by decide)⟩

theorem roundUp_zero (a : Nat) (ha : 1 ≤ a) : roundUp 0 a = 0 :=
  roundUp_of_dvd 0 a ha (Nat.dvd_zero a)

theorem closedForm_cons_cons (a b c : Nat) (bs : List Nat) :
    closedForm a (b :: c :: bs) = roundUp b a + closedForm a (c :: bs) := rfl

theorem obtainAll_closedForm (a : Nat) (ha : IsPow2 a) (fs : List Field) : ∀ (f : Field) (c : Nat),
    (∀ g ∈ f :: fs, g.alignment = a) → NoOverflow (f :: fs) c →
    (obtainAll (f :: fs) c).1 = roundUp c a + closedForm a ((f :: fs).map Field.bytes) := by
  induction fs with
  | nil =>
    intro f c hal h
    obtain ⟨h1a, h1, h2, _⟩ := h
    have halign := hal f (List.mem_cons_self _ _)
    rw [halign] at h1
    have hp := obtain_ptr_roundUp f.sizeofT c f.count a ha h1
    have hc := obtain_chunk_eq f.sizeofT c f.count f.alignment h2
    rw [halign] at hc
    rw [obtainAll_cons, halign]
    show (obtain f.sizeofT c f.count a).chunk = roundUp c a + f.count * f.sizeofT
    omega
  | cons g fs ih =>
    intro f c hal h
    obtain ⟨h1a, h1, h2, h3⟩ := h
    have halign := hal f (List.mem_cons_self _ _)
    rw [halign] at h1
    have hp := obtain_ptr_roundUp f.sizeofT c f.count a ha h1
    have hc := obtain_chunk_eq f.sizeofT c f.count f.alignment h2
    rw [halign] at hc
    rw [halign] at h3
    have hrec := ih g (obtain f.sizeofT c f.count a).chunk
      (fun x hx => hal x (List.mem_cons_of_mem _ hx)) h3
    have hsh := roundUp_add_of_dvd (roundUp c a) (f.count * f.sizeofT) a ha.pos (roundUp_dvd c a)
    rw [obtainAll_cons, halign, hrec, hc, hp, hsh]
    simp only [List.map_cons, closedForm_cons_cons, Field.bytes]
    omega

theorem obtainAll_null_closedForm (a : Nat) (ha : IsPow2 a) (fs : List Field)
    (hal : ∀ g ∈ fs, g.alignment = a) (h : NoOverflow fs 0) :
    (obtainAll fs 0).1 = closedForm a (fs.map Field.bytes) := by
  cases fs with
  | nil => rfl
  | cons f fs =>
    rw [obtainAll_closedForm a ha fs f 0 hal h, roundUp_zero a ha.pos, Nat.zero_add]

theorem closedForm_le (a : Nat) (ha : 1 ≤ a) : ∀ bs : List Nat,
    closedForm a bs ≤ bs.sum + (a - 1) * (bs.length - 1) := by
  intro bs
  induction bs with
  | nil => simp [closedForm]
  | cons b bs ih =>
    cases bs with
    | nil => simp [closedForm]
    | cons c bs =>
      have h1 := roundUp_le_add b a
      rw [closedForm_cons_cons]
      simp only [List.sum_cons, List.length_cons, Nat.add_sub_cancel] at ih ⊢
      have e : (a - 1) * (bs.length + 1) = (a - 1) * bs.length + (a - 1) := by ring
      rw [e]
      omega

/-- The padded sizes of all fields add up to the closed form plus the padding
of the last field. -/
theorem closedForm_add_padding (a : Nat) (ha : 1 ≤ a) : ∀ (bs : List Nat) (l : Nat),
    bs.getLast? = some l →
    closedForm a bs + padding l a = (bs.map (fun b => roundUp b a)).sum := by
  intro bs
  induction bs with
  | nil => intro l hl; simp at hl
  | cons b bs ih =>
    intro l hl
    cases bs with
    | nil =>
      simp only [List.getLast?_singleton, Option.some.injEq] at hl
      subst hl
      have := le_roundUp b a ha
      simp only [closedForm, padding, List.map_cons, List.map_nil, List.sum_cons, List.sum_nil]
      omega
    | cons c bs =>
      rw [List.getLast?_cons_cons] at hl
      have := ih l hl
      rw [closedForm_cons_cons]
      simp only [List.map_cons, List.sum_cons] at this ⊢
      omega

/-! ## Runs of the same calls with smaller counts -/

theorem obtainAll_le_of_counts (fs fs' : List Field)
    (hrel : List.Forall₂ Field.SameCallLE fs fs') : ∀ c d, c ≤ d →
    (∀ g ∈ fs', IsPow2 g.alignment) → NoOverflow fs' d →
    NoOverflow fs c ∧ (obtainAll fs c).1 ≤ (obtainAll fs' d).1 ∧
    List.Forall₂ (fun p q => p ≤ q) (obtainAll fs c).2 (obtainAll fs' d).2 := by
  induction hrel with
  | nil => intro c d hcd _ _; exact ⟨trivial, hcd, List.Forall₂.nil⟩
  | @cons f g fs fs' hfg _ ih =>
    intro c d hcd hal h
    obtain ⟨hs, ha, hn⟩ := hfg
    obtain ⟨h1a, h1, h2, h3⟩ := h
    have hp2 := hal g (List.mem_cons_self _ _)
    have h1c : c + g.alignment - 1 < 2 ^ 64 := by omega
    have ed := obtain_ptr_roundUp g.sizeofT d g.count g.alignment hp2 h1
    have ec := obtain_ptr_roundUp g.sizeofT c f.count g.alignment hp2 h1c
    have hm := roundUp_mono c d g.alignment hcd
    have hmul : f.count * g.sizeofT ≤ g.count * g.sizeofT := Nat.mul_le_mul_right _ hn
    have h2c : (obtain g.sizeofT c f.count g.alignment).ptr + f.count * g.sizeofT < 2 ^ 64 := by
      omega
    have hcc := obtain_chunk_eq g.sizeofT c f.count g.alignment h2c
    have hcd2 := obtain_chunk_eq g.sizeofT d g.count g.alignment h2
    obtain ⟨i1, i2, i3⟩ := ih (obtain g.sizeofT c f.count g.alignment).chunk
      (obtain g.sizeofT d g.count g.alignment).chunk (by omega)
      (fun x hx => hal x (List.mem_cons_of_mem _ hx)) h3
    rw [obtainAll_cons, obtainAll_cons, hs, ha]
    refine ⟨?_, i2, List.Forall₂.cons (by omega) i3⟩
    show 1 ≤ f.alignment ∧ c + f.alignment - 1 < 2 ^ 64 ∧
      (obtain f.sizeofT c f.count f.alignment).ptr + f.count * f.sizeofT < 2 ^ 64 ∧
      NoOverflow fs (obtain f.sizeofT c f.count f.alignment).chunk
    rw [hs, ha]
    exact ⟨h1a, h1c, h2c, i1⟩

/-! ## Order, closed form, monotonicity and padding -/

/-- C11 as stated fails: the two fields of 128 and 256 bytes, swapped, form a
different call sequence with the same final cursor from the null base (384) and
the same required size (512). -/
theorem reorder_keeps_size_example :
    evenFields.Perm evenFieldsSwapped ∧ evenFields ≠ evenFieldsSwapped ∧
    (obtainAll evenFields 0).1 = 384 ∧ (obtainAll evenFieldsSwapped 0).1 = 384 ∧
    required (StateType.ofFields evenFields) 0 =
      required (StateType.ofFields evenFieldsSwapped) 0 := by
  decide

/-- C11 (amended): changing the order of the obtain calls can change the total
required size but need not.  For two orders of the same calls, all with one
power-of-two alignment a and without overflow, the final cursor from the null
base, and hence required, differs from that of the original order exactly when
the last fields of the two orders need different padding up to a. -/
theorem reorder_changes_size_iff (T T' : StateType) (P a : Nat) (f f' : Field)
    (ha : IsPow2 a) (hperm : (T.layout P).Perm (T'.layout P))
    (hal : ∀ g ∈ T.layout P, g.alignment = a)
    (h : NoOverflow (T.layout P) 0) (h' : NoOverflow (T'.layout P) 0)
    (hreq : (T.fromChunk 0 P).1 + 128 < 2 ^ 64) (hreq' : (T'.fromChunk 0 P).1 + 128 < 2 ^ 64)
    (hl : (T.layout P).getLast? = some f) (hl' : (T'.layout P).getLast? = some f') :
    ((T.fromChunk 0 P).1 ≠ (T'.fromChunk 0 P).1 ↔ padding f.bytes a ≠ padding f'.bytes a) ∧
    (required T P ≠ required T' P ↔ padding f.bytes a ≠ padding f'.bytes a) := by
  have hal' : ∀ g ∈ T'.layout P, g.alignment = a := fun g hg => hal g (hperm.mem_iff.2 hg)
  have e := obtainAll_null_closedForm a ha (T.layout P) hal h
  have e' := obtainAll_null_closedForm a ha (T'.layout P) hal' h'
  have hb : ((T.layout P).map Field.bytes).getLast? = some f.bytes := by
    rw [List.getLast?_map, hl]; rfl
  have hb' : ((T'.layout P).map Field.bytes).getLast? = some f'.bytes := by
    rw [List.getLast?_map, hl']; rfl
  have s := closedForm_add_padding a ha.pos _ _ hb
  have s' := closedForm_add_padding a ha.pos _ _ hb'
  have hsum : (((T.layout P).map Field.bytes).map (fun b => roundUp b a)).sum =
      (((T'.layout P).map Field.bytes).map (fun b => roundUp b a)).sum :=
    ((hperm.map Field.bytes).map (fun b => roundUp b a)).sum_eq
  have hr : required T P = (T.fromChunk 0 P).1 + 128 := Nat.mod_eq_of_lt hreq
  have hr' : required T' P = (T'.fromChunk 0 P).1 + 128 := Nat.mod_eq_of_lt hreq'
  have e1 : (T.fromChunk 0 P).1 = closedForm a ((T.layout P).map Field.bytes) := e
  have e1' : (T'.fromChunk 0 P).1 = closedForm a ((T'.layout P).map Field.bytes) := e'
  rw [hr, hr', e1, e1']
  rw [hsum] at s
  constructor <;> constructor <;> intro hne <;> omega

theorem reorder_changes_size_iff_witness :
    IsPow2 128 ∧
    ((StateType.ofFields unevenFields).layout 0).Perm
      ((StateType.ofFields unevenFieldsSwapped).layout 0) ∧
    (∀ g ∈ (StateType.ofFields unevenFields).layout 0, g.alignment = 128) ∧
    NoOverflow ((StateType.ofFields unevenFields).layout 0) 0 ∧
    NoOverflow ((StateType.ofFields unevenFieldsSwapped).layout 0) 0 ∧
    ((StateType.ofFields unevenFields).fromChunk 0 0).1 + 128 < 2 ^ 64 ∧
    ((StateType.ofFields unevenFieldsSwapped).fromChunk 0 0).1 + 128 < 2 ^ 64 ∧
    ((StateType.ofFields unevenFields).layout 0).getLast? = some ⟨1, 128, 128⟩ ∧
    ((StateType.ofFields unevenFieldsSwapped).layout 0).getLast? = some ⟨1, 1, 128⟩ ∧
    ((((StateType.ofFields unevenFields).fromChunk 0 0).1 ≠
        ((StateType.ofFields unevenFieldsSwapped).fromChunk 0 0).1 ↔
      padding (Field.bytes ⟨1, 128, 128⟩) 128 ≠ padding (Field.bytes ⟨1, 1, 128⟩) 128) ∧
    (required (StateType.ofFields unevenFields) 0 ≠
        required (StateType.ofFields unevenFieldsSwapped) 0 ↔
      padding (Field.bytes ⟨1, 128, 128⟩) 128 ≠ padding (Field.bytes ⟨1, 1, 128⟩) 128)) :=
  ⟨by decide, by decide, by decide, by decide, by decide, by decide, by decide, by decide,
    by decide,
    reorder_changes_size_iff (StateType.ofFields unevenFields)
      (StateType.ofFields unevenFieldsSwapped) 0 128 ⟨1, 128, 128⟩ ⟨1, 1, 128⟩
      (by decide) (by decide) (by decide) (by decide) (by decide) (by decide) (by decide)
      (by decide) (by decide)⟩

/-- C12: alignment rounding of the null cursor is the identity: for every
power-of-two alignment a, element size s and count n (with n*s in range),
obtain called with cursor 0 sets ptr to 0 and the cursor to n*s. -/
theorem null_cursor_rounding (s n a : Nat) (ha : IsPow2 a) (h : n * s < 2 ^ 64) :
    (obtain s 0 n a).ptr = 0 ∧ (obtain s 0 n a).chunk = n * s := by
  have h0 : 0 + a - 1 < 2 ^ 64 := by
    obtain ⟨k, hk, rfl⟩ := ha
    have : 2 ^ k < 2 ^ 64 := Nat.pow_lt_pow_right (by decide) hk
    omega
  have hp : (obtain s 0 n a).ptr = 0 := by
    rw [obtain_ptr_roundUp s 0 n a ha h0, roundUp_zero a ha.pos]
  refine ⟨hp, ?_⟩
  rw [obtain_chunk_eq s 0 n a (by omega), hp, Nat.zero_add]

theorem null_cursor_rounding_witness :
    IsPow2 128 ∧ 10 * 4 < 2 ^ 64 ∧
    (obtain 4 0 10 128).ptr = 0 ∧ (obtain 4 0 10 128).chunk = 10 * 4 :=
  ⟨by decide, by decide, null_cursor_rounding 4 10 128 (by decide) (by decide)⟩

/-- C13: for every sequence of obtain calls that all use alignment 128 (no
overflow), with field byte sizes b_1..b_k, the final cursor from the null base
is roundUp(b_1,128) + ... + roundUp(b_(k-1),128) + b_k, and required returns
that sum plus 128. -/
theorem null_run_closed_form (T : StateType) (P : Nat)
    (hal : ∀ g ∈ T.layout P, g.alignment = 128)
    (h0 : NoOverflow (T.layout P) 0) (hreq : (T.fromChunk 0 P).1 + 128 < 2 ^ 64) :
    (T.fromChunk 0 P).1 = closedForm 128 ((T.layout P).map Field.bytes) ∧
    required T P = closedForm 128 ((T.layout P).map Field.bytes) + 128 := by
  have e : (T.fromChunk 0 P).1 = closedForm 128 ((T.layout P).map Field.bytes) :=
    obtainAll_null_closedForm 128 ⟨7, by decide, rfl⟩ (T.layout P) hal h0
  have hr : required T P = (T.fromChunk 0 P).1 + 128 := Nat.mod_eq_of_lt hreq
  exact ⟨e, by rw [hr, e]⟩

theorem null_run_closed_form_witness :
    (∀ g ∈ (GeometryState sampleConfig).layout 2, g.alignment = 128) ∧
    NoOverflow ((GeometryState sampleConfig).layout 2) 0 ∧
    ((GeometryState sampleConfig).fromChunk 0 2).1 + 128 < 2 ^ 64 ∧
    ((GeometryState sampleConfig).fromChunk 0 2).1 =
      closedForm 128 (((GeometryState sampleConfig).layout 2).map Field.bytes) ∧
    required (GeometryState sampleConfig) 2 =
      closedForm 128 (((GeometryState sampleConfig).layout 2).map Field.bytes) + 128 :=
  ⟨by decide, by decide, by decide,
    null_run_closed_form (GeometryState sampleConfig) 2 (by decide) (by decide) (by decide)⟩

/-- C14: for two runs of the same obtain sequence (same element sizes and
power-of-two alignments, same base) in which every field count of the first
run is at most the corresponding count of the second, every field pointer and
the final cursor of the first run are at most those of the second; hence
required is non-decreasing and a buffer that holds the run with the larger
counts holds the run with the smaller ones. -/
theorem sizing_monotone (T : StateType) (P P' B : Nat)
    (hrel : List.Forall₂ Field.SameCallLE (T.layout P) (T.layout P'))
    (hal : ∀ g ∈ T.layout P', IsPow2 g.alignment)
    (hB : NoOverflow (T.layout P') B) (h0 : NoOverflow (T.layout P') 0)
    (hreq : (T.fromChunk 0 P').1 + 128 < 2 ^ 64) :
    NoOverflow (T.layout P) B ∧
    List.Forall₂ (fun p q => p ≤ q) (T.fromChunk B P).2 (T.fromChunk B P').2 ∧
    (T.fromChunk B P).1 ≤ (T.fromChunk B P').1 ∧
    required T P ≤ required T P' ∧
    (∀ size, (T.fromChunk B P').1 ≤ B + size → (T.fromChunk B P).1 ≤ B + size) := by
  obtain ⟨b1, b2, b3⟩ := obtainAll_le_of_counts _ _ hrel B B (Nat.le_refl B) hal hB
  obtain ⟨_, z2, _⟩ := obtainAll_le_of_counts _ _ hrel 0 0 (Nat.le_refl 0) hal h0
  have z : (T.fromChunk 0 P).1 ≤ (T.fromChunk 0 P').1 := z2
  have hr' : required T P' = (T.fromChunk 0 P').1 + 128 := Nat.mod_eq_of_lt hreq
  have hr : required T P = (T.fromChunk 0 P).1 + 128 := Nat.mod_eq_of_lt (by omega)
  have b : (T.fromChunk B P).1 ≤ (T.fromChunk B P').1 := b2
  refine ⟨b1, b3, b, by omega, ?_⟩
  intro size hsize
  omega

theorem sizing_monotone_witness :
    List.Forall₂ Field.SameCallLE ((GeometryState sampleConfig).layout 2)
      ((GeometryState sampleConfig).layout 5) ∧
    (∀ g ∈ (GeometryState sampleConfig).layout 5, IsPow2 g.alignment) ∧
    NoOverflow ((GeometryState sampleConfig).layout 5) 1000 ∧
    NoOverflow ((GeometryState sampleConfig).layout 5) 0 ∧
    ((GeometryState sampleConfig).fromChunk 0 5).1 + 128 < 2 ^ 64 ∧
    (NoOverflow ((GeometryState sampleConfig).layout 2) 1000 ∧
      List.Forall₂ (fun p q => p ≤ q) ((GeometryState sampleConfig).fromChunk 1000 2).2
        ((GeometryState sampleConfig).fromChunk 1000 5).2 ∧
      ((GeometryState sampleConfig).fromChunk 1000 2).1 ≤
        ((GeometryState sampleConfig).fromChunk 1000 5).1 ∧
      required (GeometryState sampleConfig) 2 ≤ required (GeometryState sampleConfig) 5 ∧
      (∀ size, ((GeometryState sampleConfig).fromChunk 1000 5).1 ≤ 1000 + size →
        ((GeometryState sampleConfig).fromChunk 1000 2).1 ≤ 1000 + size)) :=
  ⟨by decide, by decide, by decide, by decide, by decide,
    sizing_monotone (GeometryState sampleConfig) 2 5 1000 (by decide) (by decide) (by decide)
      (by decide) (by decide)⟩

/-- C15: each obtain call with power-of-two alignment a wastes fewer than a
bytes (0 <= ptr - cursor_before <= a - 1, and 0 when the cursor is already a
multiple of a); consequently for a k-field layout with all alignments 128,
required is at most the sum of the field byte sizes plus 127*(k-1) plus 128. -/
theorem padding_bound :
    (∀ s c n a : Nat, IsPow2 a → c + a - 1 < 2 ^ 64 →
      c ≤ (obtain s c n a).ptr ∧ (obtain s c n a).ptr - c ≤ a - 1 ∧
      (a ∣ c → (obtain s c n a).ptr = c)) ∧
    (∀ (T : StateType) (P : Nat), (∀ g ∈ T.layout P, g.alignment = 128) →
      NoOverflow (T.layout P) 0 →
      required T P ≤
        ((T.layout P).map Field.bytes).sum + 127 * ((T.layout P).length - 1) + 128) := by
  refine ⟨?_, ?_⟩
  · intro s c n a ha h
    obtain ⟨b1, b2⟩ := obtain_ptr_bounds s c n a ha.pos h
    refine ⟨b1, by omega, ?_⟩
    intro hd
    rw [obtain_ptr_roundUp s c n a ha h, roundUp_of_dvd c a ha.pos hd]
  · intro T P hal h0
    have e : (T.fromChunk 0 P).1 = closedForm 128 ((T.layout P).map Field.bytes) :=
      obtainAll_null_closedForm 128 ⟨7, by decide, rfl⟩ (T.layout P) hal h0
    have hle := closedForm_le 128 (by decide) ((T.layout P).map Field.bytes)
    rw [List.length_map] at hle
    have hmod : required T P ≤ (T.fromChunk 0 P).1 + 128 := Nat.mod_le _ _
    omega

theorem padding_bound_witness :
    (IsPow2 128 ∧ 1000 + 128 - 1 < 2 ^ 64 ∧
      1000 ≤ (obtain 4 1000 10 128).ptr ∧ (obtain 4 1000 10 128).ptr - 1000 ≤ 128 - 1 ∧
      (128 ∣ 1000 → (obtain 4 1000 10 128).ptr = 1000)) ∧
    ((∀ g ∈ (GeometryState sampleConfig).layout 2, g.alignment = 128) ∧
      NoOverflow ((GeometryState sampleConfig).layout 2) 0 ∧
      required (GeometryState sampleConfig) 2 ≤
        (((GeometryState sampleConfig).layout 2).map Field.bytes).sum +
          127 * (((GeometryState sampleConfig).layout 2).length - 1) + 128) :=
  ⟨⟨by decide, by decide, padding_bound.1 4 1000 10 128 (by decide) (by decide)⟩,
    by decide, by decide,
    padding_bound.2 (GeometryState sampleConfig) 2 (by decide) (by decide)⟩

/-- C16: for every alignment a >= 1, power of two or not, the mask expression
of obtain yields a pointer in [c, c + a - 1] when no overflow occurs; but for
the non-power-of-two alignment 3 and cursor 1 the returned pointer is 1, which
is not a multiple of the alignment. -/
theorem mask_needs_power_of_two :
    (∀ s c n a : Nat, 1 ≤ a → c + a - 1 < 2 ^ 64 →
      c ≤ (obtain s c n a).ptr ∧ (obtain s c n a).ptr ≤ c + a - 1) ∧
    (¬ IsPow2 3 ∧ 1 + 3 - 1 < 2 ^ 64 ∧ (obtain 1 1 1 3).ptr = 1 ∧
      ¬ 3 ∣ (obtain 1 1 1 3).ptr) :=
  ⟨fun s c n a ha h => obtain_ptr_bounds s c n a ha h,
    by decide, by decide, by decide, by decide⟩

theorem mask_needs_power_of_two_witness :
    1 ≤ 3 ∧ 1 + 3 - 1 < 2 ^ 64 ∧
    1 ≤ (obtain 1 1 1 3).ptr ∧ (obtain 1 1 1 3).ptr ≤ 1 + 3 - 1 :=
  ⟨by decide, by decide, mask_needs_power_of_two.1 1 1 1 3 (by decide) (by decide)⟩

end CudaRasterizer
